import Mathlib

/-!
Verification of the string core of this repository (src/string.hh): the
small-string-optimized buffer cell `String::Data`, the owning `String`
type, the non-owning `StringView`, the shared `StringOps` navigation
operations (`substr` by byte, character and column count), comparison
operators, the `constexpr` recursive `strlen`, and the
`ZeroTerminatedString` adapter.

Modelling conventions:
* `size_t` values are `Nat`; the strongly typed counts `ByteCount`,
  `CharCount`, `ColumnCount` (int-backed) are `Int`.
* A C pointer into a byte buffer is modelled as the `List Nat` of bytes
  readable from that pointer onward (each byte < 256 in practice); pointer
  arithmetic `p + k` is `List.drop k`, pointer difference is a difference
  of list lengths.
* `kak_assert` (a contract check) is modelled by an `Option` result:
  `none` is an assertion failure.
* The 64-bit layout is modelled: `sizeof(size_t) = 8`, so
  `sizeof(String::Data::Long) = 24`.  The union's two members overlap; the
  byte the code reads through `s.size` is, in long mode on a little-endian
  machine, the most significant byte of `l.capacity`.  `Data.rawSizeByte`
  computes that shared byte for each active member.  Reads of the inactive
  union member other than that byte (which only happen in states excluded
  by the discriminant invariant) are given junk defaults.
* `String::Data`'s member functions defined in string.cc are not part of
  the sources; where needed they are modelled from the spec and marked
  `Modelled from the spec:` in their doc comments.
-/

namespace Kakoune

/-- `sizeof(size_t)` on the modelled 64-bit architecture. -/
def sizeof_size_t : Nat := 8

/-- `sizeof(String::Data::Long)`: a pointer and two `size_t` fields. -/
def sizeofLong : Nat := 3 * sizeof_size_t

/-- `String::Data::Long::max_capacity = (size_t)1 << 8 * (sizeof(size_t) - 1)`
(string.hh line 162). -/
def Long.max_capacity : Nat := 2 ^ (8 * (sizeof_size_t - 1))

/-- `String::Data::Short::capacity = sizeof(Long) - 2` (string.hh line 172). -/
def Short.capacity : Nat := sizeofLong - 2

/-- `INT_MAX`, used by `substr` to clamp negative lengths. -/
def intMax : Int := 2 ^ 31 - 1

/-- The union `String::Data` (string.hh lines 156-205).  The constructor
records which member is active; `long` carries `l.ptr` (as the list of the
`size` content bytes of the allocation), `l.size` and `l.capacity`;
`short` carries `s.string` (the content bytes) and the raw `s.size` byte
(which stores `2 * length + 1`). -/
inductive Data where
  | long (ptr : List Nat) (size : Nat) (capacity : Nat)
  | short (string : List Nat) (sizeByte : Nat)
deriving DecidableEq

namespace Data

/-- Which union member is active (the constructor tag of the model; the
code itself has no such tag and reconstructs it from `rawSizeByte`). -/
def heapMode : Data → Bool
  | .long _ _ _ => true
  | .short _ _ => false

/-- The byte that `s.size` denotes, for either active member: for the
short member it is the stored size byte itself; for the long member, on a
little-endian 64-bit machine, byte 23 of the cell is the most significant
byte of `l.capacity`. -/
def rawSizeByte : Data → Nat
  | .long _ _ capacity => capacity / 2 ^ 56 % 256
  | .short _ sizeByte => sizeByte % 256

/-- Read of `l.size`.  For a short cell this is a type-punned read of the
inactive member, unreachable under the discriminant invariant; it is given
a junk default. -/
def l_size : Data → Nat
  | .long _ size _ => size
  | .short _ _ => 0

/-- Read of `l.capacity` (junk default for the inactive member). -/
def l_capacity : Data → Nat
  | .long _ _ capacity => capacity
  | .short _ _ => 0

/-- Read of `l.ptr` (junk default for the inactive member). -/
def l_ptr : Data → List Nat
  | .long ptr _ _ => ptr
  | .short _ _ => []

/-- Read of `s.string` (junk default for the inactive member). -/
def s_string : Data → List Nat
  | .long _ _ _ => []
  | .short string _ => string

/-- `bool is_long() const { return (s.size & 1) == 0; }` (line 187). -/
def is_long (d : Data) : Bool := d.rawSizeByte % 2 == 0

/-- `size_t size() const { return is_long() ? l.size : (s.size >> 1); }`
(line 188). -/
def size (d : Data) : Nat := if d.is_long then d.l_size else d.rawSizeByte / 2

/-- `size_t capacity() const { return is_long() ? l.capacity : Short::capacity; }`
(line 189). -/
def capacity (d : Data) : Nat := if d.is_long then d.l_capacity else Short.capacity

/-- `const char* data() const { return is_long() ? l.ptr : s.string; }`
(line 191), as the list of content bytes readable at that pointer. -/
def data (d : Data) : List Nat := if d.is_long then d.l_ptr else d.s_string

/-- `void set_empty() { s.size = 1; }` (line 203): the canonical
empty-inline state. -/
def set_empty : Data := .short [] 1

/-- Modelled from the spec: `String::Data::set_short` is defined in
string.cc, which is not among the sources.  Per the spec's discriminant
invariant, the inline layout stores `length = stored value >> 1` with the
low bit set, i.e. the stored byte is `2 * size + 1`, and the `size` content
bytes are copied into the inline array. -/
def set_short (content : List Nat) (size : Nat) : Data :=
  .short (content.take size) (2 * size + 1)

/-- Modelled from the spec: the constructor
`String::Data::Data(const char* data, size_t size, size_t capacity)` is
defined in string.cc, which is not among the sources.  Per the spec, a
payload whose requested capacity exceeds the fixed inline capacity is
placed in a fresh heap allocation (heap layout: pointer, size, capacity),
otherwise it is stored inline via `set_short`. -/
def construct (content : List Nat) (size capacity : Nat) : Data :=
  if capacity > Short.capacity then .long (content.take size) size capacity
  else set_short content size

/-- `Data(const char* data, size_t size) : Data(data, size, size) {}`
(line 179). -/
def construct2 (content : List Nat) (size : Nat) : Data :=
  construct content size size

/-- Modelled from the spec: `String::Data::Data(Data&&)` is defined in
string.cc, which is not among the sources.  Per the spec, move
construction transfers the bit pattern (first component: the new cell) and
resets the source to the canonical empty-inline state via `set_empty`
(second component: the source after the move); it never throws and never
allocates. -/
def moveConstruct (other : Data) : Data × Data := (other, set_empty)

/-- The representation invariant of a buffer cell: a long cell's pointer
holds exactly `size` content bytes, `size ≤ capacity`, and the capacity
stays below `Long::max_capacity` (per the spec, capacity is capped so that
the discriminant bit is never set by a legitimate capacity value); a short
cell's stored byte is odd and encodes twice the content length, which is
at most `Short::capacity`. -/
def WF : Data → Prop
  | .long ptr size capacity =>
      ptr.length = size ∧ size ≤ capacity ∧ capacity < Long.max_capacity
  | .short string sizeByte =>
      sizeByte % 2 = 1 ∧ sizeByte / 2 = string.length ∧
        string.length ≤ Short.capacity

instance : DecidablePred WF := fun d => by
  unfold WF; cases d <;> infer_instance

end Data

/-- The owning string type `String` (string.hh lines 102-209): wraps one
buffer cell. -/
structure String where
  m_data : Data
deriving DecidableEq

namespace String

/-- `ByteCount length() const { return m_data.size(); }` (line 131),
as a `Nat` (the `size_t` before conversion to the int-backed count). -/
def length (s : String) : Nat := s.m_data.size

/-- `const char* data() const { return m_data.data(); }` (line 128). -/
def data (s : String) : List Nat := s.m_data.data

/-- `String(const char* content, ByteCount len) : m_data(content, (size_t)len) {}`
(line 107). -/
def construct (content : List Nat) (len : Nat) : String :=
  ⟨Data.construct2 content len⟩

end String

/-- Modelled from the spec: `codepoint_width` (declared in unicode.hh,
which is not among the sources) gives a codepoint's display width; per the
spec, wide codepoints "may count as more than one column".  A few East
Asian wide ranges are given width 2, everything else width 1. -/
def codepoint_width (cp : Nat) : Int :=
  if (0x1100 ≤ cp ∧ cp ≤ 0x115F) ∨ (0x2E80 ≤ cp ∧ cp ≤ 0xA4CF) ∨
     (0xAC00 ≤ cp ∧ cp ≤ 0xD7A3) ∨ (0xF900 ≤ cp ∧ cp ≤ 0xFAFF) ∨
     (0xFF00 ≤ cp ∧ cp ≤ 0xFF60) then 2 else 1

namespace utf8

/-- Modelled from the spec: `utf8::is_character_start` (utf8.hh is not
among the sources) recognises a byte that is not a UTF-8 continuation
byte, i.e. `(b & 0xC0) != 0x80`; for bytes the test is `b / 64 % 4 ≠ 2`. -/
def is_character_start (b : Nat) : Bool := decide (b / 64 % 4 ≠ 2)

/-- Modelled from the spec: `utf8::codepoint_size(Codepoint)` — the
number of bytes of the standard UTF-8 encoding of a codepoint. -/
def codepoint_size (cp : Nat) : Nat :=
  if cp < 0x80 then 1
  else if cp < 0x800 then 2
  else if cp < 0x10000 then 3
  else 4

/-- Modelled from the spec: `utf8::dump` (utf8.hh is not among the
sources) emits the standard UTF-8 encoding of a codepoint, written here
with division and remainder instead of shifts and masks.  Codepoints
above `0x10FFFF` are rejected by the real function (it throws); the model
is total and theorems restrict to valid codepoints. -/
def dump (cp : Nat) : List Nat :=
  if cp < 0x80 then [cp]
  else if cp < 0x800 then [0xC0 + cp / 0x40, 0x80 + cp % 0x40]
  else if cp < 0x10000 then
    [0xE0 + cp / 0x1000, 0x80 + cp / 0x40 % 0x40, 0x80 + cp % 0x40]
  else
    [0xF0 + cp / 0x40000, 0x80 + cp / 0x1000 % 0x40, 0x80 + cp / 0x40 % 0x40,
     0x80 + cp % 0x40]

/-- Modelled from the spec: `utf8::codepoint` (utf8.hh is not among the
sources) decodes the codepoint starting at the given position (modelled as
the byte list from that position).  Invalid leading bytes decode to
themselves and a read at the end of the range yields 0; theorems only
evaluate it on well-formed encodings. -/
def codepoint (l : List Nat) : Nat :=
  match l with
  | [] => 0
  | b :: rest =>
    if b < 0x80 then b
    else if b < 0xC0 then b
    else if b < 0xE0 then (b - 0xC0) * 0x40 + rest.getD 0 0 % 0x40
    else if b < 0xF0 then
      (b - 0xE0) * 0x1000 + rest.getD 0 0 % 0x40 * 0x40 + rest.getD 1 0 % 0x40
    else
      (b - 0xF0) * 0x40000 + rest.getD 0 0 % 0x40 * 0x1000 +
        rest.getD 1 0 % 0x40 * 0x40 + rest.getD 2 0 % 0x40

/-- Modelled from the spec: `utf8::distance(begin, end)` counts the
characters in a byte range — one per non-continuation byte. -/
def distance (l : List Nat) : Nat := (l.filter is_character_start).length

/-- Modelled from the spec: `utf8::to_next` moves a position one past the
current byte and then past any continuation bytes, stopping at the end of
the range. -/
def to_next : List Nat → List Nat
  | [] => []
  | _ :: rest => rest.dropWhile (fun b => ! is_character_start b)

/-- The forward loop of `utf8::advance` for a character count:
`while (it != end and d-- > 0) to_next(it, end)`. -/
def advanceCharsN : List Nat → Nat → List Nat
  | l, 0 => l
  | [], _ + 1 => []
  | b :: rest, d + 1 => advanceCharsN (to_next (b :: rest)) d

/-- Modelled from the spec: `utf8::advance(it, end, CharCount d)` clamps
at the end of the range.  The backward direction (negative `d`, which
walks towards `begin` and is not exercised by the modelled operations) is
modelled as staying put. -/
def advance (l : List Nat) (d : Int) : List Nat :=
  if d < 0 then l else advanceCharsN l d.toNat

/-- Modelled from the spec: `utf8::column_distance(begin, end)` sums the
display widths of the codepoints in a byte range. -/
def column_distance : List Nat → Int
  | [] => 0
  | b :: rest =>
    codepoint_width (codepoint (b :: rest)) + column_distance (to_next (b :: rest))
termination_by l => l.length
decreasing_by
  simp only [to_next]
  exact Nat.lt_succ_of_le (List.dropWhile_suffix _).sublist.length_le

/-- Modelled from the spec: `utf8::advance(it, end, ColumnCount d)` walks
forward whole codepoints while columns remain, clamping at the end of the
range. -/
def advanceColumns : List Nat → Int → List Nat
  | [], _ => []
  | b :: rest, d =>
    if d ≤ 0 then b :: rest
    else advanceColumns (to_next (b :: rest)) (d - codepoint_width (codepoint (b :: rest)))
termination_by l _ => l.length
decreasing_by
  simp only [to_next]
  exact Nat.lt_succ_of_le (List.dropWhile_suffix _).sublist.length_le

end utf8

/-- A byte range that is empty or starts at a character boundary (its
first byte is not a continuation byte). -/
def utf8.boundaryHead (l : List Nat) : Prop :=
  l = [] ∨ ∃ b s, l = b :: s ∧ utf8.is_character_start b = true

/-- The bytes produced by `n` iterations of `utf8::dump(back_inserter, cp)`
(the loops of the two repeated-codepoint `String` constructors,
string.hh lines 108-121). -/
def repeatedBytes (cp : Nat) (n : Nat) : List Nat :=
  (List.replicate n (utf8.dump cp)).flatten

namespace String

/-- `explicit String(Codepoint cp, CharCount count)` (lines 108-113):
reserves and dumps `count` copies of the codepoint.  The growth of the
cell through `reserve`/`append` (string.cc, not among the sources) is
modelled from the spec by constructing the final cell directly from the
emitted bytes. -/
def constructRepeatChar (cp : Nat) (count : Int) : String :=
  ⟨Data.construct2 (repeatedBytes cp count.toNat)
    (repeatedBytes cp count.toNat).length⟩

/-- `explicit String(Codepoint cp, ColumnCount count)` (lines 114-121):
asserts `count % codepoint_width(cp) == 0` (modelled by `none`), then
dumps `count / max(codepoint_width(cp), 1)` copies. -/
def constructRepeatColumn (cp : Nat) (count : Int) : Option String :=
  if count % codepoint_width cp = 0 then
    some (constructRepeatChar cp (count / max (codepoint_width cp) 1))
  else none

/-- `CharCount char_length() const` (line 67), over the span
`begin() .. end()` of the string. -/
def char_length (s : String) : Nat := utf8.distance (s.data.take s.length)

/-- `ColumnCount column_length() const` (line 68). -/
def column_length (s : String) : Int :=
  utf8.column_distance (s.data.take s.length)

/-- `Codepoint operator[](CharCount pos) const` (lines 64-65):
`utf8::codepoint(utf8::advance(begin(), end(), pos), end())`. -/
def charAt (s : String) (pos : Int) : Nat :=
  utf8.codepoint (utf8.advance (s.data.take s.length) pos)

end String

/-- `constexpr ByteCount strlen(const char* s)` (string.hh lines 96-100):
`return *s == 0 ? 0 : strlen(s+1) + 1;`.  The pointer is modelled as the
list of bytes readable at it; the `[]` case corresponds to running past
the readable bytes, which for a null-terminated sequence never happens. -/
def strlen : List Nat → Nat
  | [] => 0
  | b :: rest => if b = 0 then 0 else strlen rest + 1

/-- The non-owning view `StringView` (string.hh lines 211-253): a pointer
and an int-backed byte count.  `m_data` is the list of bytes readable at
the pointer (possibly extending past the view's own span, as a pointer
into a larger buffer does). -/
structure StringView where
  m_data : List Nat
  m_length : Int
deriving DecidableEq

namespace StringView

/-- `constexpr ByteCount length() const { return m_length; }` (line 228). -/
def length (v : StringView) : Int := v.m_length

/-- `constexpr const char* data() const { return m_data; }` (line 225). -/
def data (v : StringView) : List Nat := v.m_data

/-- `constexpr StringView(const char* data) : m_data{data},
m_length{data ? strlen(data) : 0}` (line 217); a null pointer is `none`
and is modelled as an empty readable range. -/
def fromCString : Option (List Nat) → StringView
  | none => ⟨[], 0⟩
  | some l => ⟨l, (strlen l : Int)⟩

/-- The bytes of the view's span `begin() .. end()`. -/
def bytes (v : StringView) : List Nat := v.m_data.take v.m_length.toNat

/-- A view is valid when its length is non-negative and its span lies
within the readable bytes of its pointer. -/
def Valid (v : StringView) : Prop :=
  0 ≤ v.m_length ∧ v.m_length.toNat ≤ v.m_data.length

end StringView

/-- `StringView(const String& str)` (line 219). -/
def String.toView (s : String) : StringView := ⟨s.data, (s.length : Int)⟩

/-- `StringOps::substr(ByteCount from, ByteCount length)` (string.hh
lines 257-265) over the capability `(data(), length())` of either string
type: clamps a negative length to `INT_MAX`, asserts
`from >= 0 and from <= str_len` (`none` on failure), and returns the view
`{ data() + from, min(str_len - from, length) }`. -/
def substrByte (data : List Nat) (strLen : Int) (from_ len_ : Int) :
    Option StringView :=
  let len := if len_ < 0 then intMax else len_
  if 0 ≤ from_ ∧ from_ ≤ strLen then
    some ⟨data.drop from_.toNat, min (strLen - from_) len⟩
  else none

/-- `StringOps::substr(CharCount from, CharCount length)` (lines 267-274):
clamps a negative length to `INT_MAX`, advances `from` characters from
`begin()` and then `length` characters further, and returns the view
between the two positions.  There is no assertion in this overload. -/
def substrChar (data : List Nat) (strLen : Int) (from_ len_ : Int) :
    StringView :=
  let len := if len_ < 0 then intMax else len_
  let span := data.take strLen.toNat
  let beg := utf8.advance span from_
  let fin := utf8.advance beg len
  ⟨data.drop (span.length - beg.length), (beg.length : Int) - (fin.length : Int)⟩

/-- `StringOps::substr(ColumnCount from, ColumnCount length)` (lines
276-283): as the character-count overload, but advancing by columns.
There is no assertion in this overload. -/
def substrColumn (data : List Nat) (strLen : Int) (from_ len_ : Int) :
    StringView :=
  let len := if len_ < 0 then intMax else len_
  let span := data.take strLen.toNat
  let beg := utf8.advanceColumns span from_
  let fin := utf8.advanceColumns beg len
  ⟨data.drop (span.length - beg.length), (beg.length : Int) - (fin.length : Int)⟩

/-- The position reached by advancing `from_` characters into the span:
the "rest of the string" that an overflowing length is clamped to. -/
def charAdvanceRest (data : List Nat) (strLen from_ : Int) : List Nat :=
  utf8.advance (data.take strLen.toNat) from_

/-- As `charAdvanceRest`, for the column-count overload. -/
def columnAdvanceRest (data : List Nat) (strLen from_ : Int) : List Nat :=
  utf8.advanceColumns (data.take strLen.toNat) from_

/-- `operator==(const StringView&, const StringView&)` (lines 300-305):
`lhs.length() == rhs.length() and std::equal(lhs.begin(), lhs.end(),
rhs.begin())`. -/
def strEq (a b : StringView) : Bool :=
  a.m_length == b.m_length &&
    a.m_data.take a.m_length.toNat == b.m_data.take a.m_length.toNat

/-- `std::lexicographical_compare` over byte ranges: true iff the first
range is lexicographically less than the second by byte value. -/
def lexLt : List Nat → List Nat → Bool
  | _, [] => false
  | [], _ :: _ => true
  | a :: as, b :: bs => if a < b then true else if b < a then false else lexLt as bs

/-- `operator<(const StringView&, const StringView&)` (lines 311-315). -/
def strLt (a b : StringView) : Bool := lexLt a.bytes b.bytes

/-- `StringView::ZeroTerminatedString` (string.hh lines 232-247): either
borrows the view's begin pointer (`unowned`) or holds one owned,
null-terminated copy in a default-empty cell (`owned`). -/
structure ZeroTerminatedString where
  owned : Data
  unowned : Option (List Nat)
deriving DecidableEq

/-- `ZeroTerminatedString(const char* begin, const char* end)` (lines
234-240): if `*end == '\0'` the begin pointer is borrowed, otherwise
`owned = String::Data(begin, end - begin)`.  `endOff` is `end - begin`;
reading `*end` past the modelled buffer (the C undefined-behaviour case)
defaults to 0 and is excluded by the theorems' hypotheses. -/
def ZeroTerminatedString.construct (begin_ : List Nat) (endOff : Nat) :
    ZeroTerminatedString :=
  if begin_.getD endOff 0 = 0 then ⟨Data.set_empty, some begin_⟩
  else ⟨Data.construct2 begin_ endOff, none⟩

/-- `operator const char*() const { return unowned ? unowned : owned.data(); }`
(line 241), as the list of bytes readable at the returned pointer.
Modelled from the spec: in the owned case the cell's buffer carries a null
byte after the content (owning buffers are null-terminated). -/
def ZeroTerminatedString.cPtr (z : ZeroTerminatedString) : List Nat :=
  match z.unowned with
  | some p => p
  | none => z.owned.data ++ [0]

/-- `ZeroTerminatedString zstr() const { return {begin(), end()}; }`
(line 248). -/
def StringView.zstr (v : StringView) : ZeroTerminatedString :=
  ZeroTerminatedString.construct v.m_data v.m_length.toNat

/-- Helper: evaluating `Data.construct2` under the capacity cap, when the
source pointer really carries `n` readable bytes.  Shared by the
round-trip, zstr and repeated-codepoint developments. -/
theorem Data.construct2_spec (c : List Nat) (n : Nat)
    (h : n < Long.max_capacity) (hc : n ≤ c.length) :
    (Data.construct2 c n).size = n ∧ (Data.construct2 c n).data = c.take n ∧
      (Data.construct2 c n).WF := by
  have htake : (c.take n).length = n := by
    simp [List.length_take, Nat.min_eq_left hc]
  unfold Data.construct2 Data.construct Data.set_short
  by_cases hs : n > Short.capacity
  · rw [if_pos hs]
    have hlong : (Data.long (c.take n) n n).is_long = true := by
      have h' : n < 2 ^ 56 := by
        simpa [Long.max_capacity, sizeof_size_t] using h
      simp only [Data.is_long, Data.rawSizeByte, beq_iff_eq]
      omega
    refine ⟨?_, ?_, ?_⟩
    · simp [Data.size, hlong, Data.l_size]
    · simp [Data.data, hlong, Data.l_ptr]
    · exact ⟨htake, le_refl n, h⟩
  · rw [if_neg hs]
    push_neg at hs
    have hshort : (Data.short (c.take n) (2 * n + 1)).is_long = false := by
      simp only [Data.is_long, Data.rawSizeByte]
      have h256 : (2 * n + 1) % 256 % 2 = 1 := by omega
      simp [h256]
    have hs' : n ≤ 22 := by
      simpa [Short.capacity, sizeofLong, sizeof_size_t] using hs
    refine ⟨?_, ?_, ?_⟩
    · simp only [Data.size, hshort, Bool.false_eq_true, if_false,
        Data.rawSizeByte]
      omega
    · simp [Data.data, hshort, Data.s_string]
    · exact ⟨by omega, by rw [htake]; omega, by omega⟩

/-- Helper: two lists agree on their first `n` entries iff the bytes
agree position by position. -/
theorem take_eq_iff_getD (n : Nat) :
    ∀ (xs ys : List Nat), n ≤ xs.length → n ≤ ys.length →
      (xs.take n = ys.take n ↔ ∀ i, i < n → xs.getD i 0 = ys.getD i 0) := by
  induction n with
  | zero => intro xs ys _ _; simp
  | succ n ih =>
    intro xs ys hx hy
    match xs, ys with
    | [], _ => simp at hx
    | _ :: _, [] => simp at hy
    | x :: xs, y :: ys =>
      simp only [List.take_succ_cons, List.cons.injEq]
      rw [ih xs ys (by simpa using hx) (by simpa using hy)]
      constructor
      · rintro ⟨hxy, hp⟩ i hi
        match i with
        | 0 => simpa [List.getD] using hxy
        | j + 1 => simpa [List.getD] using hp j (by omega)
      · intro hp
        refine ⟨by simpa [List.getD] using hp 0 (by omega), fun j hj => ?_⟩
        simpa [List.getD] using hp (j + 1) (by omega)

/-- Helper: the model of `std::lexicographical_compare` agrees with the
lexicographic strict order on byte lists. -/
theorem lexLt_iff : ∀ (xs ys : List Nat),
    lexLt xs ys = true ↔ List.Lex (fun x y => x < y) xs ys := by
  intro xs
  induction xs with
  | nil =>
    intro ys
    cases ys with
    | nil =>
      simp only [lexLt]
      constructor
      · intro h; cases h
      · intro h; cases h
    | cons y ys =>
      simp only [lexLt]
      constructor
      · intro _; exact List.Lex.nil
      · intro _; trivial
  | cons x xs ih =>
    intro ys
    cases ys with
    | nil =>
      simp only [lexLt]
      constructor
      · intro h; cases h
      · intro h; cases h
    | cons y ys =>
      simp only [lexLt]
      rcases lt_trichotomy x y with hlt | heq | hgt
      · rw [if_pos hlt]
        exact ⟨fun _ => List.Lex.rel hlt, fun _ => rfl⟩
      · subst heq
        rw [if_neg (lt_irrefl x), if_neg (lt_irrefl x)]
        rw [ih ys]
        constructor
        · exact fun h => List.Lex.cons h
        · intro h
          cases h with
          | cons h => exact h
          | rel h => exact absurd h (lt_irrefl x)
      · rw [if_neg (by omega), if_pos hgt]
        constructor
        · intro h; cases h
        · intro h
          cases h with
          | cons h => exact absurd hgt (lt_irrefl _)
          | rel h => omega

/-- Helper: advancing by at least as many characters as there are bytes
reaches the end of the range. -/
theorem advanceCharsN_eq_nil : ∀ (n : Nat) (l : List Nat),
    l.length ≤ n → utf8.advanceCharsN l n = [] := by
  intro n
  induction n with
  | zero =>
    intro l hl
    have : l = [] := List.eq_nil_of_length_eq_zero (by omega)
    simp [this, utf8.advanceCharsN]
  | succ n ih =>
    intro l hl
    cases l with
    | nil => simp [utf8.advanceCharsN]
    | cons b rest =>
      simp only [utf8.advanceCharsN]
      apply ih
      have hd : (utf8.to_next (b :: rest)).length ≤ rest.length := by
        simp only [utf8.to_next]
        exact (List.dropWhile_suffix _).sublist.length_le
      simp at hl
      omega

/-- Helper: a codepoint's display width is 1 or 2. -/
theorem codepoint_width_bounds (cp : Nat) :
    1 ≤ codepoint_width cp ∧ codepoint_width cp ≤ 2 := by
  unfold codepoint_width
  split <;> exact ⟨by decide, by decide⟩

/-- Helper: advancing by at least twice as many columns as there are
bytes reaches the end of the range. -/
theorem advanceColumns_eq_nil : ∀ (n : Nat) (l : List Nat) (d : Int),
    l.length ≤ n → 2 * l.length ≤ d → utf8.advanceColumns l d = [] := by
  intro n
  induction n with
  | zero =>
    intro l d hl _
    have : l = [] := List.eq_nil_of_length_eq_zero (by omega)
    simp [this, utf8.advanceColumns]
  | succ n ih =>
    intro l d hl hd
    cases l with
    | nil => simp [utf8.advanceColumns]
    | cons b rest =>
      have hlen : (b :: rest).length = rest.length + 1 := by simp
      have hdpos : ¬ d ≤ 0 := by
        rw [hlen] at hd; push_cast at hd; omega
      rw [utf8.advanceColumns, if_neg hdpos]
      have hw := codepoint_width_bounds (utf8.codepoint (b :: rest))
      have hnext : (utf8.to_next (b :: rest)).length ≤ rest.length := by
        simp only [utf8.to_next]
        exact (List.dropWhile_suffix _).sublist.length_le
      apply ih
      · simp at hl; omega
      · rw [hlen] at hd
        push_cast at hd ⊢
        omega

/-- C2: constructing an owning string from a byte sequence `b` of length
`n` (any `n` up to the capacity cap — spanning 0, the inline boundary and
far beyond it) yields `length() == n` and `data()[i] == b[i]` for every
`i < n`. -/
theorem claim_roundtrip_construction (b : List Nat)
    (h : b.length < Long.max_capacity) :
    (String.construct b b.length).length = b.length ∧
    (String.construct b b.length).data = b ∧
    (∀ i, i < b.length →
      (String.construct b b.length).data.getD i 0 = b.getD i 0) := by
  obtain ⟨h1, h2, _⟩ := Data.construct2_spec b b.length h (le_refl _)
  rw [List.take_length] at h2
  refine ⟨h1, h2, fun i _ => ?_⟩
  show (String.construct b b.length).m_data.data.getD i 0 = b.getD i 0
  rw [show (String.construct b b.length).m_data = Data.construct2 b b.length from rfl, h2]
/-- Witness for C2 on a concrete byte sequence crossing nothing out of
the ordinary (inline mode). -/
theorem claim_roundtrip_construction_witness :
    ([1, 2, 3] : List Nat).length < Long.max_capacity ∧
      (String.construct [1, 2, 3] 3).length = 3 :=
  ⟨by decide, (claim_roundtrip_construction [1, 2, 3] (by decide)).1⟩

/-- C5: equality of views is content equality — same length and the same
byte at every position, with no reference to storage mode or pointer
identity — and `operator<` is exactly lexicographic strict ordering by
byte value, witnessed on `"ab" < "b"` and `"" < "a"`. -/
theorem claim_view_equality_ordering (a b : StringView)
    (ha : a.Valid) (hb : b.Valid) :
    (strEq a b = true ↔
      a.m_length = b.m_length ∧
        ∀ i, i < a.m_length.toNat → a.m_data.getD i 0 = b.m_data.getD i 0) ∧
    (strLt a b = true ↔ List.Lex (fun x y => x < y) a.bytes b.bytes) ∧
    strLt ⟨[97, 98], 2⟩ ⟨[98], 1⟩ = true ∧
    strLt ⟨[], 0⟩ ⟨[97], 1⟩ = true := by
  obtain ⟨ha1, ha2⟩ := ha
  obtain ⟨hb1, hb2⟩ := hb
  refine ⟨?_, lexLt_iff _ _, by decide, by decide⟩
  unfold strEq
  rw [Bool.and_eq_true, beq_iff_eq, beq_iff_eq]
  constructor
  · rintro ⟨hlen, htake⟩
    refine ⟨hlen, ?_⟩
    have hb2' : a.m_length.toNat ≤ b.m_data.length := by rw [hlen]; exact hb2
    exact (take_eq_iff_getD a.m_length.toNat a.m_data b.m_data ha2 hb2').mp htake
  · rintro ⟨hlen, hp⟩
    refine ⟨hlen, ?_⟩
    have hb2' : a.m_length.toNat ≤ b.m_data.length := by rw [hlen]; exact hb2
    exact (take_eq_iff_getD a.m_length.toNat a.m_data b.m_data ha2 hb2').mpr hp
/-- Witness for C5 on two concrete equal views with distinct backing
lists (distinct pointers, same content). -/
theorem claim_view_equality_ordering_witness :
    (StringView.mk [97, 98, 99] 2).Valid ∧ (StringView.mk [97, 98] 2).Valid ∧
      strEq ⟨[97, 98, 99], 2⟩ ⟨[97, 98], 2⟩ = true :=
  ⟨by constructor <;> decide, by constructor <;> decide,
    ((claim_view_equality_ordering ⟨[97, 98, 99], 2⟩ ⟨[97, 98], 2⟩
      ⟨by decide, by decide⟩ ⟨by decide, by decide⟩).1).mpr
      ⟨rfl, by decide⟩⟩

/-- C8: the zero-terminated adapter of a view `v` of length `n` yields a
pointer whose first `n` bytes are `v`'s bytes followed by a null byte;
when the byte just past the span is already null the adapter borrows
`v`'s own begin pointer (no copy), otherwise it holds one owned,
null-terminated copy of the bytes. -/
theorem claim_zstr_adapter (v : StringView) (_h0 : 0 ≤ v.m_length)
    (h1 : v.m_length.toNat < v.m_data.length) (h2 : v.m_length ≤ intMax) :
    ((v.zstr.cPtr).take v.m_length.toNat = v.bytes ∧
      (v.zstr.cPtr).getD v.m_length.toNat 0 = 0) ∧
    (v.m_data.getD v.m_length.toNat 0 = 0 →
      v.zstr.unowned = some v.m_data ∧ v.zstr.cPtr = v.m_data) ∧
    (v.m_data.getD v.m_length.toNat 0 ≠ 0 →
      v.zstr.unowned = none ∧ v.zstr.owned.data = v.bytes) := by
  have hcap : v.m_length.toNat < Long.max_capacity := by
    have : v.m_length.toNat ≤ intMax.toNat := by omega
    have h22 : intMax.toNat < Long.max_capacity := by decide
    omega
  obtain ⟨hsz, hdata, _⟩ :=
    Data.construct2_spec v.m_data v.m_length.toNat hcap (le_of_lt h1)
  by_cases hnull : v.m_data.getD v.m_length.toNat 0 = 0
  · have hz : v.zstr = ⟨Data.set_empty, some v.m_data⟩ := by
      unfold StringView.zstr ZeroTerminatedString.construct
      rw [if_pos hnull]
    rw [hz]
    refine ⟨⟨rfl, hnull⟩, fun _ => ⟨rfl, rfl⟩, fun hne => absurd hnull hne⟩
  · have hz : v.zstr =
        ⟨Data.construct2 v.m_data v.m_length.toNat, none⟩ := by
      unfold StringView.zstr ZeroTerminatedString.construct
      rw [if_neg hnull]
    have htakelen : (v.m_data.take v.m_length.toNat).length = v.m_length.toNat := by
      simp [List.length_take, Nat.min_eq_left (le_of_lt h1)]
    rw [hz]
    have hptr : (ZeroTerminatedString.mk
        (Data.construct2 v.m_data v.m_length.toNat) none).cPtr =
        v.m_data.take v.m_length.toNat ++ [0] := by
      unfold ZeroTerminatedString.cPtr
      simp [hdata]
    refine ⟨⟨?_, ?_⟩, fun he => absurd he hnull, fun _ => ⟨rfl, by simpa using hdata⟩⟩
    · rw [hptr]
      rw [List.take_append_of_le_length (by omega)]
      rw [List.take_take, Nat.min_self]
      rfl
    · rw [hptr]
      rw [List.getD_append_right _ _ _ _ (by omega)]
      simp [htakelen]
/-- Witness for C8 on a concrete view not followed by a null byte (copy
path). -/
theorem claim_zstr_adapter_witness :
    ((0 : Int) ≤ 2 ∧ (2 : Int).toNat < ([97, 98, 99] : List Nat).length ∧
      (2 : Int) ≤ intMax) ∧
      ((StringView.mk [97, 98, 99] 2).zstr.cPtr).getD 2 0 = 0 :=
  ⟨⟨by decide, by decide, by decide⟩,
    ((claim_zstr_adapter ⟨[97, 98, 99], 2⟩ (by decide) (by decide)
      (by decide)).1).2⟩

/-- C1: for every well-formed buffer cell, the least-significant bit of
the byte that holds the inline length is the mode discriminant: the cell
is in heap (long) mode iff that bit is 0 and in inline (short) mode iff
it is 1, in which case the inline length equals the stored byte shifted
right by one; the heap capacity never exceeds
`2^(8*(sizeof(size_t)-1))`, and the inline capacity is the fixed
constant `sizeof(Long) - 2`. -/
theorem claim_discriminant_bit (d : Data) (h : d.WF) :
    d.is_long = d.heapMode ∧
    (d.heapMode = true ↔ d.rawSizeByte % 2 = 0) ∧
    (d.heapMode = false ↔ d.rawSizeByte % 2 = 1) ∧
    (d.heapMode = false → d.size = d.rawSizeByte / 2) ∧
    (d.heapMode = true → d.l_capacity ≤ Long.max_capacity) ∧
    Short.capacity = sizeofLong - 2 := by
  cases d with
  | long ptr sz cap =>
    obtain ⟨h1, h2, h3⟩ := h
    have h3' : cap < 2 ^ 56 := by
      simpa [Long.max_capacity, sizeof_size_t] using h3
    have hbyte : (Data.long ptr sz cap).rawSizeByte = 0 := by
      simp only [Data.rawSizeByte]; omega
    refine ⟨?_, ?_, ?_, ?_, ?_, rfl⟩
    · simp [Data.is_long, Data.heapMode, hbyte]
    · simp [Data.heapMode, hbyte]
    · simp [Data.heapMode, hbyte]
    · simp [Data.heapMode]
    · intro _
      simp only [Data.l_capacity]
      exact le_of_lt h3
  | short s b =>
    obtain ⟨h1, h2, h3⟩ := h
    have hbyte : (Data.short s b).rawSizeByte % 2 = 1 := by
      simp only [Data.rawSizeByte]; omega
    refine ⟨?_, ?_, ?_, ?_, ?_, rfl⟩
    · simp only [Data.is_long, Data.heapMode, hbyte]; rfl
    · simp [Data.heapMode, hbyte]
    · simp [Data.heapMode, hbyte]
    · intro _
      have : (Data.short s b).is_long = false := by
        simp only [Data.is_long, hbyte]; rfl
      simp [Data.size, this]
    · intro hc; cases hc
/-- Witness for C1 at a concrete inline cell. -/
theorem claim_discriminant_bit_witness :
    (Data.short [97] 3).WF ∧ (Data.short [97] 3).is_long = (Data.short [97] 3).heapMode :=
  ⟨by decide, (claim_discriminant_bit (Data.short [97] 3) (by decide)).1⟩

/-- C6: move-constructing from a cell transfers the bit pattern (the new
cell is the source cell), and leaves the source in the canonical
empty-inline state: size 0, inline mode, valid empty storage.  The model
is a pure function, so the move neither throws nor allocates (the new
cell literally reuses the source's buffer). -/
theorem claim_move_semantics (d : Data) :
    (Data.moveConstruct d).1 = d ∧
    (Data.moveConstruct d).2.size = 0 ∧
    (Data.moveConstruct d).2.is_long = false ∧
    (Data.moveConstruct d).2.data = [] := by
  refine ⟨rfl, ?_, ?_, ?_⟩ <;> simp only [Data.moveConstruct] <;> decide

/-- C10: constructing a `StringView` from a null char pointer yields a
view of length 0; the terminator scan is skipped entirely. -/
theorem claim_null_cstring_view :
    (StringView.fromCString none).length = 0 ∧
    (StringView.fromCString none).m_data = [] :=
  ⟨rfl, rfl⟩

/-- C9: for a pointer to a null-terminated byte sequence (a byte list
containing 0), the recursive `strlen` computes the number of bytes
strictly before the first null byte — every byte before position
`strlen l` is non-null and the byte at `strlen l` is null — and the
`StringView` built from such a pointer has that length. -/
theorem claim_strlen_terminates (l : List Nat) (h : 0 ∈ l) :
    strlen l = (l.takeWhile (fun b => b != 0)).length ∧
    strlen l < l.length ∧
    (∀ i, i < strlen l → l.getD i 0 ≠ 0) ∧
    l.getD (strlen l) 0 = 0 ∧
    (StringView.fromCString (some l)).length = (strlen l : Int) := by
  induction l with
  | nil => simp at h
  | cons b rest ih =>
    by_cases hb : b = 0
    · subst hb
      refine ⟨?_, ?_, ?_, ?_, rfl⟩
      · simp [strlen, List.takeWhile]
      · simp [strlen]
      · intro i hi; simp [strlen] at hi
      · simp [strlen]
    · have h' : (0 : Nat) ∈ rest := by
        rcases List.mem_cons.mp h with h0 | h0
        · exact absurd h0.symm hb
        · exact h0
      obtain ⟨ih1, ih2, ih3, ih4, _⟩ := ih h'
      have hs : strlen (b :: rest) = strlen rest + 1 := by
        simp [strlen, hb]
      refine ⟨?_, ?_, ?_, ?_, rfl⟩
      · have hbt : (b != 0) = true := by simpa using hb
        simp [hs, List.takeWhile, hbt, ih1]
      · simpa [hs] using Nat.succ_lt_succ ih2
      · intro i hi
        match i with
        | 0 => simpa [List.getD] using hb
        | j + 1 =>
          have : j < strlen rest := by omega
          simpa [List.getD] using ih3 j this
      · simpa [hs, List.getD] using ih4
/-- Witness for C9 on a concrete null-terminated sequence. -/
theorem claim_strlen_terminates_witness :
    (0 : Nat) ∈ [104, 105, 0, 120] ∧
      strlen [104, 105, 0, 120] =
        (([104, 105, 0, 120] : List Nat).takeWhile (fun b => b != 0)).length :=
  ⟨by decide, (claim_strlen_terminates [104, 105, 0, 120] (by decide)).1⟩

/-- C3: for a byte offset `from` with `0 <= from <= length`, `substr`
with an overflowing (or negative) length returns exactly the remaining
suffix — the view starting at `data() + from` of byte count
`length - from` — and `substr(length, anything)` is an empty view. -/
theorem claim_substr_byte_clamp (data : List Nat) (strLen from_ len_ : Int)
    (h1 : 0 ≤ from_) (h2 : from_ ≤ strLen) (h3 : strLen ≤ intMax) :
    ((strLen - from_ < len_ ∨ len_ < 0) →
      substrByte data strLen from_ len_ =
        some ⟨data.drop from_.toNat, strLen - from_⟩) ∧
    substrByte data strLen strLen len_ =
      some ⟨data.drop strLen.toNat, 0⟩ := by
  have hMax : (0 : Int) ≤ intMax := by decide
  constructor
  · intro h4
    unfold substrByte
    rw [if_pos ⟨h1, h2⟩]
    rcases h4 with h4 | h4
    · have hpos : ¬ len_ < 0 := by omega
      rw [if_neg hpos]
      rw [min_eq_left (le_of_lt h4)]
    · rw [if_pos h4]
      rw [min_eq_left (by omega)]
  · unfold substrByte
    have h0 : (0 : Int) ≤ strLen := le_trans h1 h2
    rw [if_pos ⟨h0, le_refl strLen⟩]
    have : min (strLen - strLen) (if len_ < 0 then intMax else len_) = 0 := by
      rw [Int.sub_self]
      split
      · exact min_eq_left hMax
      · exact min_eq_left (by omega)
    rw [this]
/-- Witness for C3 at a concrete view. -/
theorem claim_substr_byte_clamp_witness :
    ((0 : Int) ≤ 1 ∧ (1 : Int) ≤ 3 ∧ (3 : Int) ≤ intMax ∧ (3 : Int) - 1 < 100) ∧
      substrByte [97, 98, 99] 3 1 100 = some ⟨[98, 99], 2⟩ := by
  refine ⟨by decide, ?_⟩
  have h := (claim_substr_byte_clamp [97, 98, 99] 3 1 100 (by decide) (by decide)
    (by decide)).1 (by decide)
  simpa using h

/-- Helper: `dropWhile` over continuation bytes lands on a character
boundary (or at the end). -/
theorem boundaryHead_dropWhile (t : List Nat) :
    utf8.boundaryHead (t.dropWhile (fun b => ! utf8.is_character_start b)) := by
  induction t with
  | nil => exact Or.inl rfl
  | cons r rs ih =>
    by_cases hr : utf8.is_character_start r = true
    · rw [List.dropWhile_cons_of_neg (by simp [hr])]
      exact Or.inr ⟨r, rs, rfl, hr⟩
    · rw [List.dropWhile_cons_of_pos (by simp at hr; simp [hr])]
      exact ih

/-- Helper: `to_next` always lands on a character boundary (or at the
end). -/
theorem boundaryHead_to_next (l : List Nat) :
    utf8.boundaryHead (utf8.to_next l) := by
  cases l with
  | nil => exact Or.inl rfl
  | cons b rest => exact boundaryHead_dropWhile rest

/-- Helper: continuation bytes do not contribute to `distance`. -/
theorem distance_dropWhile_cont (t : List Nat) :
    utf8.distance (t.dropWhile (fun b => ! utf8.is_character_start b)) =
      utf8.distance t := by
  induction t with
  | nil => rfl
  | cons r rs ih =>
    by_cases hr : utf8.is_character_start r = true
    · rw [List.dropWhile_cons_of_neg (by simp [hr])]
    · rw [List.dropWhile_cons_of_pos (by simp at hr; simp [hr])]
      unfold utf8.distance at ih ⊢
      rw [List.filter_cons_of_neg (by simp at hr; simp [hr])]
      exact ih

/-- Helper: stepping `to_next` from a range keeps `distance`, except that
a leading boundary byte is consumed. -/
theorem distance_to_next_cons (b : Nat) (rest : List Nat) :
    utf8.distance (utf8.to_next (b :: rest)) = utf8.distance rest := by
  simp only [utf8.to_next]
  exact distance_dropWhile_cont rest

/-- Helper: from a character boundary, advancing at least `distance`
characters reaches the end of the range. -/
theorem advanceCharsN_boundary_le :
    ∀ (d : Nat) (l : List Nat), utf8.boundaryHead l →
      utf8.distance l ≤ d → utf8.advanceCharsN l d = [] := by
  intro d
  induction d with
  | zero =>
    intro l hb h0
    rcases hb with hb | ⟨b, s, hb, hs⟩
    · simp [hb, utf8.advanceCharsN]
    · subst hb
      unfold utf8.distance at h0
      rw [List.filter_cons_of_pos (by simp [hs])] at h0
      simp at h0
  | succ d ih =>
    intro l hb h
    rcases hb with hb | ⟨b, s, hb, hs⟩
    · simp [hb, utf8.advanceCharsN]
    · subst hb
      show utf8.advanceCharsN (utf8.to_next (b :: s)) d = []
      apply ih _ (boundaryHead_to_next _)
      rw [distance_to_next_cons]
      unfold utf8.distance at h
      rw [List.filter_cons_of_pos (by simp [hs])] at h
      unfold utf8.distance
      simp at h
      omega

/-- Helper: advancing strictly more characters than `distance` counts
reaches the end of the range, from any byte position. -/
theorem advanceCharsN_overflow (d : Nat) (l : List Nat)
    (h : utf8.distance l < d) : utf8.advanceCharsN l d = [] := by
  cases d with
  | zero => omega
  | succ d =>
    cases l with
    | nil => simp [utf8.advanceCharsN]
    | cons b rest =>
      show utf8.advanceCharsN (utf8.to_next (b :: rest)) d = []
      apply advanceCharsN_boundary_le _ _ (boundaryHead_to_next _)
      rw [distance_to_next_cons]
      have hle : utf8.distance rest ≤ utf8.distance (b :: rest) := by
        unfold utf8.distance
        rw [List.filter_cons]
        split <;> simp
      omega

/-- Helper: `column_distance` is non-negative. -/
theorem column_distance_nonneg_aux :
    ∀ (n : Nat) (l : List Nat), l.length ≤ n → 0 ≤ utf8.column_distance l := by
  intro n
  induction n with
  | zero =>
    intro l hl
    have : l = [] := List.eq_nil_of_length_eq_zero (by omega)
    simp [this, utf8.column_distance]
  | succ n ih =>
    intro l hl
    cases l with
    | nil => simp [utf8.column_distance]
    | cons b rest =>
      rw [utf8.column_distance]
      have hw := codepoint_width_bounds (utf8.codepoint (b :: rest))
      have hnext : (utf8.to_next (b :: rest)).length ≤ rest.length := by
        simp only [utf8.to_next]
        exact (List.dropWhile_suffix _).sublist.length_le
      have := ih (utf8.to_next (b :: rest)) (by simp at hl; omega)
      omega

/-- Helper: `column_distance` is non-negative. -/
theorem column_distance_nonneg (l : List Nat) : 0 ≤ utf8.column_distance l :=
  column_distance_nonneg_aux l.length l (le_refl _)

/-- Helper: advancing at least `column_distance` columns reaches the end
of the range, from any byte position. -/
theorem advanceColumns_overflow :
    ∀ (n : Nat) (l : List Nat) (d : Int), l.length ≤ n →
      utf8.column_distance l ≤ d → utf8.advanceColumns l d = [] := by
  intro n
  induction n with
  | zero =>
    intro l d hl _
    have : l = [] := List.eq_nil_of_length_eq_zero (by omega)
    simp [this, utf8.advanceColumns]
  | succ n ih =>
    intro l d hl hd
    cases l with
    | nil => simp [utf8.advanceColumns]
    | cons b rest =>
      rw [utf8.column_distance] at hd
      have hw := codepoint_width_bounds (utf8.codepoint (b :: rest))
      have hnext : (utf8.to_next (b :: rest)).length ≤ rest.length := by
        simp only [utf8.to_next]
        exact (List.dropWhile_suffix _).sublist.length_le
      have hnn := column_distance_nonneg (utf8.to_next (b :: rest))
      have hdpos : ¬ d ≤ 0 := by omega
      rw [utf8.advanceColumns, if_neg hdpos]
      apply ih
      · simp at hl; omega
      · omega

/-- C4 (amended): all three `substr` overloads clamp a negative or
overflowing length to the rest of the string — a negative length is
replaced by `INT_MAX`, and a length exceeding the remaining content
(remaining bytes, characters or columns, for the respective overload)
yields exactly the remaining suffix — but only the byte-count overload
asserts that the start offset lies within `[0, length]`; the character-
and column-count overloads instead clamp the start offset at the end of
the string (their traversal stops at `end()`), yielding a well-defined
empty suffix with no contract violation. -/
theorem claim_substr_overloads_amended (data : List Nat)
    (strLen from_ len_ : Int) :
    (substrByte data strLen from_ len_ = none ↔
      ¬(0 ≤ from_ ∧ from_ ≤ strLen)) ∧
    (0 ≤ from_ → from_ ≤ strLen → strLen ≤ intMax →
      (strLen - from_ < len_ ∨ len_ < 0) →
      substrByte data strLen from_ len_ =
        some ⟨data.drop from_.toNat, strLen - from_⟩) ∧
    (len_ < 0 →
      substrChar data strLen from_ len_ =
        substrChar data strLen from_ intMax ∧
      substrColumn data strLen from_ len_ =
        substrColumn data strLen from_ intMax) ∧
    ((utf8.distance (charAdvanceRest data strLen from_) : Int) < len_ →
      substrChar data strLen from_ len_ =
        ⟨data.drop ((data.take strLen.toNat).length -
            (charAdvanceRest data strLen from_).length),
          ((charAdvanceRest data strLen from_).length : Int)⟩) ∧
    (utf8.column_distance (columnAdvanceRest data strLen from_) < len_ →
      substrColumn data strLen from_ len_ =
        ⟨data.drop ((data.take strLen.toNat).length -
            (columnAdvanceRest data strLen from_).length),
          ((columnAdvanceRest data strLen from_).length : Int)⟩) ∧
    ((utf8.distance (charAdvanceRest data strLen from_) : Int) < intMax →
      len_ < 0 →
      substrChar data strLen from_ len_ =
        ⟨data.drop ((data.take strLen.toNat).length -
            (charAdvanceRest data strLen from_).length),
          ((charAdvanceRest data strLen from_).length : Int)⟩) ∧
    (utf8.column_distance (columnAdvanceRest data strLen from_) < intMax →
      len_ < 0 →
      substrColumn data strLen from_ len_ =
        ⟨data.drop ((data.take strLen.toNat).length -
            (columnAdvanceRest data strLen from_).length),
          ((columnAdvanceRest data strLen from_).length : Int)⟩) := by
  have hcharNil : ∀ d : Int,
      (utf8.distance (charAdvanceRest data strLen from_) : Int) < d →
      utf8.advance (charAdvanceRest data strLen from_) d = [] := by
    intro d hd
    have h0 : (0 : Int) ≤ (utf8.distance (charAdvanceRest data strLen from_) : Int) :=
      Int.natCast_nonneg _
    unfold utf8.advance
    rw [if_neg (by omega)]
    apply advanceCharsN_overflow
    omega
  have hcolNil : ∀ d : Int,
      utf8.column_distance (columnAdvanceRest data strLen from_) ≤ d →
      utf8.advanceColumns (columnAdvanceRest data strLen from_) d = [] :=
    fun d hd => advanceColumns_overflow
      (columnAdvanceRest data strLen from_).length _ d (le_refl _) hd
  have hcharRes : ∀ d : Int, ¬ d < 0 →
      utf8.advance (charAdvanceRest data strLen from_) d = [] →
      substrChar data strLen from_ d =
        ⟨data.drop ((data.take strLen.toNat).length -
            (charAdvanceRest data strLen from_).length),
          ((charAdvanceRest data strLen from_).length : Int)⟩ := by
    intro d hd hnil
    simp only [substrChar, hd, if_false]
    unfold charAdvanceRest at hnil ⊢
    rw [hnil]
    simp
  have hcolRes : ∀ d : Int, ¬ d < 0 →
      utf8.advanceColumns (columnAdvanceRest data strLen from_) d = [] →
      substrColumn data strLen from_ d =
        ⟨data.drop ((data.take strLen.toNat).length -
            (columnAdvanceRest data strLen from_).length),
          ((columnAdvanceRest data strLen from_).length : Int)⟩ := by
    intro d hd hnil
    simp only [substrColumn, hd, if_false]
    unfold columnAdvanceRest at hnil ⊢
    rw [hnil]
    simp
  refine ⟨?_, ?_, ?_, ?_, ?_, ?_, ?_⟩
  · unfold substrByte
    by_cases hc : 0 ≤ from_ ∧ from_ ≤ strLen
    · rw [if_pos hc]; simp [hc]
    · rw [if_neg hc]; simp [hc]
  · intro h1 h2 h3 h4
    unfold substrByte
    rw [if_pos ⟨h1, h2⟩]
    rcases h4 with h4 | h4
    · rw [if_neg (by omega), min_eq_left (le_of_lt h4)]
    · rw [if_pos h4, min_eq_left (by omega)]
  · intro h
    constructor
    · unfold substrChar
      rw [if_pos h, if_neg (by decide : ¬ intMax < (0 : Int))]
    · unfold substrColumn
      rw [if_pos h, if_neg (by decide : ¬ intMax < (0 : Int))]
  · intro h
    have h0 : (0 : Int) ≤ (utf8.distance (charAdvanceRest data strLen from_) : Int) :=
      Int.natCast_nonneg _
    exact hcharRes len_ (by omega) (hcharNil len_ h)
  · intro h
    have h0 := column_distance_nonneg (columnAdvanceRest data strLen from_)
    exact hcolRes len_ (by omega) (hcolNil len_ (le_of_lt h))
  · intro h hneg
    have e1 : substrChar data strLen from_ len_ =
        substrChar data strLen from_ intMax := by
      unfold substrChar
      rw [if_pos hneg, if_neg (by decide : ¬ intMax < (0 : Int))]
    rw [e1]
    exact hcharRes intMax (by decide) (hcharNil intMax h)
  · intro h hneg
    have e1 : substrColumn data strLen from_ len_ =
        substrColumn data strLen from_ intMax := by
      unfold substrColumn
      rw [if_pos hneg, if_neg (by decide : ¬ intMax < (0 : Int))]
    rw [e1]
    exact hcolRes intMax (by decide) (hcolNil intMax (le_of_lt h))
/-- Witness for the amended C4 at concrete inputs: a byte substr with an
overflowing length yields the remaining suffix, a character substr asking
for more characters than remain (3 characters on a 2-character, 4-byte
string) yields the whole remaining suffix, and a column substr asking for
more columns than remain (4 columns on "abc") does too. -/
theorem claim_substr_overloads_amended_witness :
    (((0 : Int) ≤ 0 ∧ (0 : Int) ≤ 4 ∧ (4 : Int) ≤ intMax ∧ ((4 : Int) - 0 < 9 ∨ (9 : Int) < 0)) ∧
      substrByte [195, 169, 195, 169] 4 0 9 = some ⟨[195, 169, 195, 169], 4⟩) ∧
    ((utf8.distance (charAdvanceRest [195, 169, 195, 169] 4 0) : Int) < 3 ∧
      substrChar [195, 169, 195, 169] 4 0 3 = ⟨[195, 169, 195, 169], 4⟩) ∧
    (utf8.column_distance (columnAdvanceRest [97, 98, 99] 3 0) < 4 ∧
      substrColumn [97, 98, 99] 3 0 4 = ⟨[97, 98, 99], 3⟩) := by
  have e1 : columnAdvanceRest [97, 98, 99] 3 0 = [97, 98, 99] := by
    simp [columnAdvanceRest, utf8.advanceColumns]
  have hcol : utf8.column_distance (columnAdvanceRest [97, 98, 99] 3 0) = 3 := by
    rw [e1]
    norm_num [utf8.column_distance, utf8.to_next, utf8.codepoint,
      codepoint_width, List.dropWhile, utf8.is_character_start]
  refine ⟨⟨by decide, ?_⟩, ⟨by decide, ?_⟩, ⟨by omega, ?_⟩⟩
  · have h := (claim_substr_overloads_amended [195, 169, 195, 169] 4 0 9).2.1
      (by decide) (by decide) (by decide) (by decide)
    simpa using h
  · have h := (claim_substr_overloads_amended [195, 169, 195, 169] 4 0 3).2.2.2.1
      (by decide)
    simpa using h
  · have h := (claim_substr_overloads_amended [97, 98, 99] 3 0 4).2.2.2.2.1
      (by omega)
    rw [e1] at h
    simpa using h

/-- Counterexample to C4 as stated: the character- and column-count
overloads do not assert that the start offset is within `[0, length]` —
at `from = 4` on the 3-byte, 3-character string "abc" they return the
well-defined empty view at the end of the string, while the byte-count
overload's assertion does fire there. -/
theorem claim_substr_overloads_counterexample :
    substrByte [97, 98, 99] 3 4 1 = none ∧
    substrChar [97, 98, 99] 3 4 1 = ⟨[], 0⟩ ∧
    substrColumn [97, 98, 99] 3 4 1 = ⟨[], 0⟩ := by
  refine ⟨by decide, by decide, ?_⟩
  have e1 : List.take (Int.toNat 3) ([97, 98, 99] : List Nat) = [97, 98, 99] := rfl
  simp only [substrColumn, e1]
  norm_num [utf8.advanceColumns, utf8.to_next, utf8.codepoint, codepoint_width,
    List.dropWhile, utf8.is_character_start]

/-- Helper: shape of a dumped codepoint — its byte count matches
`codepoint_size`, its first byte is a character start and the remaining
bytes are continuation bytes. -/
theorem dump_shape (cp : Nat) (hcp : cp ≤ 0x10FFFF) :
    (utf8.dump cp).length = utf8.codepoint_size cp ∧
    ∃ b t, utf8.dump cp = b :: t ∧ utf8.is_character_start b = true ∧
      ∀ x ∈ t, utf8.is_character_start x = false := by
  unfold utf8.dump utf8.codepoint_size utf8.is_character_start
  by_cases h1 : cp < 0x80
  · rw [if_pos h1, if_pos h1]
    exact ⟨rfl, cp, [], rfl, by simp; omega, by simp⟩
  · rw [if_neg h1, if_neg h1]
    by_cases h2 : cp < 0x800
    · rw [if_pos h2, if_pos h2]
      refine ⟨rfl, _, _, rfl, by simp; omega, ?_⟩
      intro x hx
      simp at hx
      subst hx
      simp
      omega
    · rw [if_neg h2, if_neg h2]
      by_cases h3 : cp < 0x10000
      · rw [if_pos h3, if_pos h3]
        refine ⟨rfl, _, _, rfl, by simp; omega, ?_⟩
        intro x hx
        simp at hx
        rcases hx with hx | hx <;> subst hx <;> simp <;> omega
      · rw [if_neg h3, if_neg h3]
        refine ⟨rfl, _, _, rfl, by simp; omega, ?_⟩
        intro x hx
        simp at hx
        rcases hx with hx | hx | hx <;> subst hx <;> simp <;> omega

/-- Helper: decoding at a dumped codepoint recovers the codepoint,
whatever bytes follow. -/
theorem codepoint_dump_append (cp : Nat) (rest : List Nat)
    (hcp : cp ≤ 0x10FFFF) :
    utf8.codepoint (utf8.dump cp ++ rest) = cp := by
  unfold utf8.dump utf8.codepoint
  by_cases h1 : cp < 0x80
  · rw [if_pos h1]
    simp only [List.cons_append, List.nil_append]
    rw [if_pos h1]
  · rw [if_neg h1]
    by_cases h2 : cp < 0x800
    · rw [if_pos h2]
      simp only [List.cons_append, List.nil_append]
      rw [if_neg (by omega), if_neg (by omega), if_pos (by omega)]
      simp [List.getD]
      omega
    · rw [if_neg h2]
      by_cases h3 : cp < 0x10000
      · rw [if_pos h3]
        simp only [List.cons_append, List.nil_append]
        rw [if_neg (by omega), if_neg (by omega), if_neg (by omega),
          if_pos (by omega)]
        simp [List.getD]
        omega
      · rw [if_neg h3]
        simp only [List.cons_append, List.nil_append]
        rw [if_neg (by omega), if_neg (by omega), if_neg (by omega),
          if_neg (by omega)]
        simp [List.getD]
        omega

/-- Helper: `dropWhile` over continuation bytes followed by a range that
is empty or starts at a character boundary stops exactly at the range. -/
theorem dropWhile_cont_append (t rest : List Nat)
    (ht : ∀ x ∈ t, utf8.is_character_start x = false)
    (hr : rest = [] ∨ ∃ b s, rest = b :: s ∧ utf8.is_character_start b = true) :
    (t ++ rest).dropWhile (fun b => ! utf8.is_character_start b) = rest := by
  induction t with
  | nil =>
    simp only [List.nil_append]
    rcases hr with hr | ⟨b, s, hr, hb⟩
    · simp [hr]
    · subst hr
      simp [List.dropWhile_cons, hb]
  | cons x t ih =>
    have hx : utf8.is_character_start x = false := ht x (by simp)
    simp only [List.cons_append, List.dropWhile_cons, hx]
    simpa using ih (fun y hy => ht y (by simp [hy]))

/-- Helper: stepping one character past a dumped codepoint lands exactly
on the following bytes. -/
theorem to_next_dump_append (cp : Nat) (rest : List Nat) (hcp : cp ≤ 0x10FFFF)
    (hr : rest = [] ∨ ∃ b s, rest = b :: s ∧ utf8.is_character_start b = true) :
    utf8.to_next (utf8.dump cp ++ rest) = rest := by
  obtain ⟨-, b, t, hd, _, ht⟩ := dump_shape cp hcp
  rw [hd]
  simp only [List.cons_append, utf8.to_next]
  exact dropWhile_cont_append t rest ht hr

/-- Helper: the repeated bytes of zero copies. -/
theorem repeatedBytes_zero (cp : Nat) : repeatedBytes cp 0 = [] := rfl

/-- Helper: the repeated bytes of `n+1` copies. -/
theorem repeatedBytes_succ (cp n : Nat) :
    repeatedBytes cp (n + 1) = utf8.dump cp ++ repeatedBytes cp n := by
  unfold repeatedBytes
  rw [List.replicate_succ, List.flatten_cons]

/-- Helper: a repeated-bytes range is empty or starts at a character
boundary. -/
theorem repeatedBytes_boundary (cp n : Nat) (hcp : cp ≤ 0x10FFFF) :
    repeatedBytes cp n = [] ∨
      ∃ b s, repeatedBytes cp n = b :: s ∧ utf8.is_character_start b = true := by
  cases n with
  | zero => exact Or.inl rfl
  | succ m =>
    obtain ⟨-, b, t, hd, hb, -⟩ := dump_shape cp hcp
    right
    exact ⟨b, t ++ repeatedBytes cp m, by rw [repeatedBytes_succ, hd]; rfl, hb⟩

/-- Helper: a list of continuation bytes contributes nothing to
`distance`. -/
theorem filter_cont_eq_nil (t : List Nat)
    (ht : ∀ x ∈ t, utf8.is_character_start x = false) :
    t.filter utf8.is_character_start = [] := by
  induction t with
  | nil => rfl
  | cons x t ih =>
    rw [List.filter_cons_of_neg (by simp [ht x (by simp)])]
    exact ih fun y hy => ht y (by simp [hy])

/-- Helper: `utf8::distance` counts exactly `n` characters over `n`
dumped copies of a codepoint. -/
theorem distance_repeatedBytes (cp : Nat) (hcp : cp ≤ 0x10FFFF) :
    ∀ n, utf8.distance (repeatedBytes cp n) = n := by
  intro n
  induction n with
  | zero => rfl
  | succ m ih =>
    obtain ⟨-, b, t, hd, hb, ht⟩ := dump_shape cp hcp
    unfold utf8.distance at ih ⊢
    rw [repeatedBytes_succ, List.filter_append, List.length_append, ih, hd,
      List.filter_cons_of_pos (by simp [hb]), filter_cont_eq_nil t ht]
    simp only [List.length_cons, List.length_nil]
    omega

/-- Helper: advancing `i` characters into `n` dumped copies leaves
`n - i` copies. -/
theorem advanceCharsN_repeatedBytes (cp : Nat) (hcp : cp ≤ 0x10FFFF) :
    ∀ i n, utf8.advanceCharsN (repeatedBytes cp n) i = repeatedBytes cp (n - i) := by
  intro i
  induction i with
  | zero => intro n; simp [utf8.advanceCharsN]
  | succ j ih =>
    intro n
    cases n with
    | zero => simp [repeatedBytes_zero, utf8.advanceCharsN]
    | succ m =>
      obtain ⟨-, b, t, hd, hb, ht⟩ := dump_shape cp hcp
      have hne : repeatedBytes cp (m + 1) = b :: (t ++ repeatedBytes cp m) := by
        rw [repeatedBytes_succ, hd]; rfl
      rw [hne]
      simp only [utf8.advanceCharsN]
      rw [← hne, repeatedBytes_succ,
        to_next_dump_append cp _ hcp (repeatedBytes_boundary cp m hcp), ih m]
      congr 1
      omega

/-- Helper: `utf8::column_distance` over `n` dumped copies is `n` times
the codepoint's width. -/
theorem column_distance_repeatedBytes (cp : Nat) (hcp : cp ≤ 0x10FFFF) :
    ∀ n, utf8.column_distance (repeatedBytes cp n) = (n : Int) * codepoint_width cp := by
  intro n
  induction n with
  | zero => simp [repeatedBytes_zero, utf8.column_distance]
  | succ m ih =>
    obtain ⟨-, b, t, hd, hb, ht⟩ := dump_shape cp hcp
    have hne : repeatedBytes cp (m + 1) = b :: (t ++ repeatedBytes cp m) := by
      rw [repeatedBytes_succ, hd]; rfl
    rw [hne, utf8.column_distance, ← hne, repeatedBytes_succ,
      to_next_dump_append cp _ hcp (repeatedBytes_boundary cp m hcp),
      ← repeatedBytes_succ, repeatedBytes_succ,
      codepoint_dump_append cp _ hcp, ih]
    push_cast
    ring

/-- C7: for a valid codepoint `cp` and `n ≥ 0`, `String(cp, n)` (character
count) consists of exactly `n` copies of `cp` — `char_length() == n` and
every character position decodes to `cp`; for a column count `m` that the
display width `w` of `cp` evenly divides, `String(cp, m)` produces `m / w`
copies with `column_length() == m`, and a column count not divisible by
`w` is a contract violation. -/
theorem claim_repeat_codepoint_ctors (cp n : Nat) (hcp : cp ≤ 0x10FFFF)
    (hbound : (repeatedBytes cp n).length < Long.max_capacity) :
    ((String.constructRepeatChar cp (n : Int)).char_length = n ∧
      (∀ i : Nat, i < n →
        (String.constructRepeatChar cp (n : Int)).charAt (i : Int) = cp)) ∧
    (∀ m : Int, 0 ≤ m →
      (repeatedBytes cp ((m / codepoint_width cp).toNat)).length < Long.max_capacity →
      ((codepoint_width cp ∣ m →
        String.constructRepeatColumn cp m =
          some (String.constructRepeatChar cp (m / codepoint_width cp)) ∧
        (String.constructRepeatChar cp (m / codepoint_width cp)).column_length = m ∧
        (String.constructRepeatChar cp (m / codepoint_width cp)).char_length =
          (m / codepoint_width cp).toNat) ∧
       (¬ codepoint_width cp ∣ m → String.constructRepeatColumn cp m = none))) := by
  have hw := codepoint_width_bounds cp
  have key : ∀ k : Nat, (repeatedBytes cp k).length < Long.max_capacity →
      (String.constructRepeatChar cp (k : Int)).char_length = k ∧
      (String.constructRepeatChar cp (k : Int)).data = repeatedBytes cp k ∧
      (String.constructRepeatChar cp (k : Int)).length = (repeatedBytes cp k).length ∧
      (String.constructRepeatChar cp (k : Int)).column_length =
        (k : Int) * codepoint_width cp := by
    intro k hk
    have htn : ((k : Int)).toNat = k := Int.toNat_natCast k
    obtain ⟨hsz, hdata, -⟩ :=
      Data.construct2_spec (repeatedBytes cp k) (repeatedBytes cp k).length hk
        (le_refl _)
    rw [List.take_length] at hdata
    have hL : (String.constructRepeatChar cp (k : Int)).length =
        (repeatedBytes cp k).length := by
      show (Data.construct2 (repeatedBytes cp ((k : Int)).toNat)
        (repeatedBytes cp ((k : Int)).toNat).length).size = _
      rw [htn]; exact hsz
    have hD : (String.constructRepeatChar cp (k : Int)).data =
        repeatedBytes cp k := by
      show (Data.construct2 (repeatedBytes cp ((k : Int)).toNat)
        (repeatedBytes cp ((k : Int)).toNat).length).data = _
      rw [htn]; exact hdata
    refine ⟨?_, hD, hL, ?_⟩
    · unfold String.char_length
      rw [hD, hL, List.take_length]
      exact distance_repeatedBytes cp hcp k
    · unfold String.column_length
      rw [hD, hL, List.take_length]
      exact column_distance_repeatedBytes cp hcp k
  obtain ⟨hchar, hdata, hlen, -⟩ := key n hbound
  refine ⟨⟨hchar, ?_⟩, ?_⟩
  · intro i hi
    unfold String.charAt
    rw [hdata, hlen, List.take_length]
    unfold utf8.advance
    rw [if_neg (by omega), Int.toNat_natCast,
      advanceCharsN_repeatedBytes cp hcp i n]
    have : n - i = (n - i - 1) + 1 := by omega
    rw [this, repeatedBytes_succ]
    exact codepoint_dump_append cp _ hcp
  · intro m hm hbound2
    have hmax : max (codepoint_width cp) 1 = codepoint_width cp :=
      max_eq_left hw.1
    constructor
    · intro hdvd
      have hre : String.constructRepeatColumn cp m =
          some (String.constructRepeatChar cp (m / codepoint_width cp)) := by
        unfold String.constructRepeatColumn
        rw [if_pos (Int.emod_eq_zero_of_dvd hdvd), hmax]
      have hq0 : 0 ≤ m / codepoint_width cp := Int.ediv_nonneg hm (by omega)
      have hqn : ((m / codepoint_width cp).toNat : Int) = m / codepoint_width cp :=
        Int.toNat_of_nonneg hq0
      obtain ⟨-, -, -, hcol⟩ := key ((m / codepoint_width cp).toNat) hbound2
      have hcl : (String.constructRepeatChar cp (m / codepoint_width cp)).column_length
          = m := by
        rw [← hqn, hcol, hqn, Int.ediv_mul_cancel hdvd]
      obtain ⟨hcl2, -, -, -⟩ := key ((m / codepoint_width cp).toNat) hbound2
      refine ⟨hre, ?_, ?_⟩
      · rw [← hqn]; exact hcl
      · rw [← hqn]; exact hcl2
    · intro hndvd
      unfold String.constructRepeatColumn
      rw [if_neg ?_]
      intro he
      exact hndvd (Int.dvd_of_emod_eq_zero he)
/-- Witness for C7 at a concrete codepoint and counts. -/
theorem claim_repeat_codepoint_ctors_witness :
    ((97 : Nat) ≤ 0x10FFFF ∧ (repeatedBytes 97 2).length < Long.max_capacity) ∧
      (String.constructRepeatChar 97 (2 : Int)).char_length = 2 :=
  ⟨⟨by decide, by decide⟩,
    (claim_repeat_codepoint_ctors 97 2 (by decide) (by decide)).1.1⟩

end Kakoune
